import Mathlib

/-!
# Verification of the prime_tools library (src/src/lib.rs)

Shallow embedding of the Rust library `prime_tools` into Lean 4.

Modelling conventions:

* Machine integers (`u32`, `u64`, `usize`) are modelled as `Nat`.  Arithmetic
  that can overflow or panic in Rust (checked in debug builds; the spec's
  safety claims speak of "no unsigned-arithmetic overflow" and "no
  out-of-range index access") is modelled explicitly: a function that can
  panic returns `Option _`, and `none` models a panic (overflow, underflow,
  out-of-bounds `BitVec::set`, division by zero) or divergence.
* `BitVec` bitmaps are modelled as total functions `Nat → Bool` together with
  explicit bound checks at the places where the Rust code indexes them.
* Loops are modelled as fuel-based structural recursions.  Each call site
  passes fuel that provably dominates the number of iterations of the Rust
  loop (adequacy lemmas below), so the fuel-exhaustion branches are never
  taken on the executions the theorems speak about.
* `(v as f64).sqrt()` style computations are modelled exactly by the integer
  square root: for every input the library actually feeds them (`x ≤ 2^32`
  in `get_prime_bit_map`, and `max ≤ 2^52` in the theorems about
  `get_primes_between`) the `f64` value is exact and its correctly rounded
  square root truncates to `⌊√x⌋`.  `round::ceil(s, 1)` (ceiling at one
  decimal digit) is modelled as `⌈10·√x⌉ / 10` on integers.
-/

set_option maxRecDepth 40000

namespace PrimeTools

/-- Fuel-based mirror of the Newton iteration `Nat.sqrt.iter` used by
`Nat.sqrt`.  The mirror is structurally recursive, hence kernel-computable;
`natSqrtIter_eq` below identifies it with `Nat.sqrt.iter`. -/
def natSqrtIter (fuel n guess : Nat) : Nat :=
  match fuel with
  | 0 => guess
  | fuel + 1 =>
    let next := (guess + n / guess) / 2
    if next < guess then natSqrtIter fuel n next else guess

/-- Kernel-computable integer square root; equal to `Nat.sqrt`
(theorem `natSqrt_eq`).  Used to model the `f64` square roots of the
Rust source. -/
def natSqrt (n : Nat) : Nat :=
  if n ≤ 1 then n else natSqrtIter n n (n / 2)

/-- Models `round::ceil((x as f64).sqrt(), 1) as usize` from
`get_prime_bit_map`: the square root of `x`, rounded up at the first
decimal digit, then truncated to an integer, i.e. `⌊⌈10·√x⌉ / 10⌋`. -/
def sieveBound (x : Nat) : Nat :=
  (if natSqrt (100 * x) * natSqrt (100 * x) = 100 * x then natSqrt (100 * x)
   else natSqrt (100 * x) + 1) / 10

/-- Inner loop of the sieve in `get_prime_bit_map`:
`for j in i.. { if i * j > x { break; } prime_map.set(i * j, false); }`.
The cleared indices `i*j` satisfy `i*j ≤ x`, hence are in bounds for the
bitmap of size `x+1`, so `set` cannot panic here.  The call site passes
fuel `x + 1`, which dominates the iteration count for every `i ≥ 1`
(lemma `clearMultiples_false_iff` needs nothing more). -/
def clearMultiples (fuel x i j : Nat) (m : Nat → Bool) : Nat → Bool :=
  match fuel with
  | 0 => m
  | fuel + 1 =>
    if i * j ≤ x then
      clearMultiples fuel x i (j + 1) (fun k => if k = i * j then false else m k)
    else m

/-- Outer loop of the sieve in `get_prime_bit_map`:
`for i in 2..=bound { if prime_map[i] { ...inner loop... } }`.
The index read `prime_map[i]` is in bounds because `bound ≤ x` for the
bound actually used (lemma `sieveBound_le`).  Fuel `bound + 1` dominates
the iteration count from `i = 2`. -/
def sieveOuter (fuel x bound i : Nat) (m : Nat → Bool) : Nat → Bool :=
  match fuel with
  | 0 => m
  | fuel + 1 =>
    if i ≤ bound then
      sieveOuter fuel x bound (i + 1)
        (if m i then clearMultiples (x + 1) x i i m else m)
    else m

/-- Models `get_prime_bit_map(x: u64) -> BitVec`.
Builds `BitVec::from_elem(x as usize + 1, true)`, clears indices 0 and 1,
then runs the sieve of Eratosthenes up to `sieveBound x`.
`BitVec::set` asserts `index < nbits`; `set(0, false)` is always in
bounds, but `set(1, false)` panics when the bitmap has size `x + 1 ≤ 1`,
i.e. when `x = 0`; `none` models that panic. -/
def get_prime_bit_map (x : Nat) : Option (Nat → Bool) :=
  if 1 < x + 1 then
    some (sieveOuter (sieveBound x + 1) x (sieveBound x) 2
      (fun k => if k = 1 then false else if k = 0 then false else true))
  else none

/-- Models `get_primes_less_than_x(x: u32) -> Vec<u32>`:
collects every index `i < x` whose bitmap flag is still `true`. -/
def get_primes_less_than_x (x : Nat) : Option (List Nat) :=
  match get_prime_bit_map x with
  | none => none
  | some m => some ((List.range x).filter m)

/-- Models the trial-division loop of `is_u32_definately_prime`:
`while i * i <= x { if x % i == 0 { return false; } i += w; w = 6 - w; }`.
The u32 multiplication `i * i` overflows (a panic in debug builds) once
`i * i ≥ 2^32`; `none` models that panic.  Fuel `2^16` dominates the
iteration count from `i = 5` because `i` grows by `w ∈ {2,4}` each step
and the loop stops (one way or another) before `i` exceeds `2^16 + 1`. -/
def u32WheelLoop (fuel x i w : Nat) : Option Bool :=
  match fuel with
  | 0 => none
  | fuel + 1 =>
    if 4294967296 ≤ i * i then none
    else if x < i * i then some true
    else if x % i = 0 then some false
    else u32WheelLoop fuel x (i + w) (6 - w)

/-- Models `is_u32_definitely_composite`, which is `return false;`. -/
def is_u32_definitely_composite (_x : Nat) : Bool := false

/-- Models `is_u32_definately_prime(x: u32) -> bool`. -/
def is_u32_definately_prime (x : Nat) : Option Bool :=
  if x = 2 ∨ x = 3 then some true
  else if x % 2 = 0 ∨ x % 3 = 0 then some false
  else u32WheelLoop 65536 x 5 2

/-- Models `is_u32_prime(x: u32) -> bool`:
`if x < 2 { return false; } (!is_u32_definitely_composite(x)) && is_u32_definately_prime(x)`.
Since `is_u32_definitely_composite` is constantly `false`, the `&&`
short-circuit always evaluates the second operand. -/
def is_u32_prime (x : Nat) : Option Bool :=
  if x < 2 then some false
  else if is_u32_definitely_composite x then some false
  else is_u32_definately_prime x

/-- Models the trial-division loop of `is_u64_definately_prime`, with the
u64 overflow bound `2^64` in place of `2^32`. -/
def u64WheelLoop (fuel x i w : Nat) : Option Bool :=
  match fuel with
  | 0 => none
  | fuel + 1 =>
    if 18446744073709551616 ≤ i * i then none
    else if x < i * i then some true
    else if x % i = 0 then some false
    else u64WheelLoop fuel x (i + w) (6 - w)

/-- Models `is_u64_definitely_composite`, which is `return false;`. -/
def is_u64_definitely_composite (_x : Nat) : Bool := false

/-- Models `is_u64_definately_prime(x: u64) -> bool` as written in the
source.  The first two statements,
`if x == 2 || x == 3 { true }` and `if x % 2 == 0 || x % 3 == 0 { false }`,
are missing `return`: as written they are `if` expressions without `else`
whose block value is discarded (Rust in fact rejects the function with a
type error, E0317).  We model the source text literally: both guards are
dead and control always falls through to the trial-division loop. -/
def is_u64_definately_prime (x : Nat) : Option Bool :=
  u64WheelLoop 4294967296 x 5 2

/-- Models `is_u64_prime(x: u64) -> bool`. -/
def is_u64_prime (x : Nat) : Option Bool :=
  if x < 2 then some false
  else if is_u64_definitely_composite x then some false
  else is_u64_definately_prime x

/-- Models the inner loop of `get_prime_factors_with_counts`:
`while drop_x % prime == 0 { prime_count += 1; drop_x = drop_x / prime; }`.
Callers ensure `p ≥ 2` (the `p = 0` and `p = 1` cases are handled before
this loop is entered, see `getPrimeFactorsLoop`), so fuel `d` dominates
the number of divisions performed. -/
def divideOut (fuel p d count : Nat) : Nat × Nat :=
  match fuel with
  | 0 => (d, count)
  | fuel + 1 =>
    if d % p = 0 then divideOut fuel p (d / p) (count + 1) else (d, count)

/-- Models the outer loop of `get_prime_factors_with_counts`:
`while drop_x > 1 && primes_index < primes.len() { ... }`, accumulating
`(prime, prime_count)` insertions in traversal order (the `HashMap` is
modelled as the association list of its insertions; keys are inserted at
most once because a repeated list element no longer divides the running
remainder).  A list element `0` makes the Rust loop condition
`drop_x % prime == 0` panic (division by zero) and an element `1` makes
the inner loop run forever (`drop_x / 1 == drop_x`); both are modelled
as `none`. -/
def getPrimeFactorsLoop (drop : Nat) (primes : List Nat) (acc : List (Nat × Nat)) :
    Option (Nat × List (Nat × Nat)) :=
  match primes with
  | [] => some (drop, acc)
  | p :: rest =>
    if drop ≤ 1 then some (drop, acc)
    else if p = 0 then none
    else if p = 1 then none
    else
      match divideOut drop p drop 0 with
      | (d, c) => getPrimeFactorsLoop d rest (if c ≠ 0 then acc ++ [(p, c)] else acc)

/-- Models `get_prime_factors_with_counts(x: u32, primes: &Vec<u32>) -> HashMap<u32, u32>`.
After the loop, `if factor_counts.len() == 0 { factor_counts.insert(x, 1); }`. -/
def get_prime_factors_with_counts (x : Nat) (primes : List Nat) :
    Option (List (Nat × Nat)) :=
  match getPrimeFactorsLoop x primes [] with
  | none => none
  | some (_, factor_counts) =>
    some (if factor_counts.length = 0 then [(x, 1)] else factor_counts)

/-- The product of `key ^ value` over all entries of a factor-count
mapping (the reconstruction product named by the specification). -/
def prodPow (l : List (Nat × Nat)) : Nat :=
  (l.map (fun kv => kv.1 ^ kv.2)).prod

/-- Models the per-prime marking loop of `get_primes_between`:
`while val < max { prime_map.set((val - true_min) as usize, false); val += prime; }`.
Every `val` reaching the `set` satisfies `true_min ≤ val < max` for the
start values the caller produces, so the `u64` subtraction cannot
underflow and the index is in bounds.  The call site passes fuel
`max + 1`, which dominates the iteration count for `p ≥ 1`. -/
def offsetClearLoop (fuel true_min max p val : Nat) (m : Nat → Bool) : Nat → Bool :=
  match fuel with
  | 0 => m
  | fuel + 1 =>
    if val < max then
      offsetClearLoop fuel true_min max p (val + p)
        (fun k => if k = val - true_min then false else m k)
    else m

/-- Models one iteration of `for prime in &possible_prime_factors` in
`get_primes_between`: computes the starting multiple of `p` and clears
its multiples below `max`. -/
def clearPrimeMultiples (true_min max p : Nat) (m : Nat → Bool) : Nat → Bool :=
  let multiplier := if p < true_min then true_min / p else 1
  let val0 := multiplier * p
  let val1 := if true_min ≤ p then val0 + p else val0
  let val2 := if val1 < true_min then val1 + p else val1
  offsetClearLoop (max + 1) true_min max p val2 m

/-- Folds `clearPrimeMultiples` over the seed-prime list, in order. -/
def offsetSieve (true_min max : Nat) (primes : List Nat) (m : Nat → Bool) : Nat → Bool :=
  match primes with
  | [] => m
  | p :: rest => offsetSieve true_min max rest (clearPrimeMultiples true_min max p m)

/-- Models `get_primes_between(min: u64, max: u64) -> Vec<u64>`.
`highest_factor` models `(max as f64).sqrt() as u32` as `⌊√max⌋` (exact
for `max < 2^53`, which covers every input the theorems below quantify
over; at the concrete input of the `claim_C4_counterexample` the `f64`
computation also yields `2^32 - 1`).  The u32 addition
`highest_factor + 1` overflows when `highest_factor = 2^32 - 1`, and the
u64 subtraction `max - true_min` (sizing the offset bitmap) underflows
when `max < true_min`; both panics are modelled as `none`. -/
def get_primes_between (min max : Nat) : Option (List Nat) :=
  let true_min := if min < 2 then 2 else min
  let highest_factor := natSqrt max
  if 4294967296 ≤ highest_factor + 1 then none
  else
    match get_primes_less_than_x (highest_factor + 1) with
    | none => none
    | some possible_prime_factors =>
      if max < true_min then none
      else
        let m := offsetSieve true_min max possible_prime_factors (fun _ => true)
        some ((List.range' true_min (max - true_min)).filter
          (fun val => m (val - true_min)))

/-! ## Square-root model -/

theorem natSqrtIter_eq (fuel n guess : Nat) (h : guess ≤ fuel) :
    natSqrtIter fuel n guess = Nat.sqrt.iter n guess := by
  induction fuel generalizing guess with
  | zero =>
    have hg : guess = 0 := by omega
    subst hg
    rw [Nat.sqrt.iter]
    simp [natSqrtIter]
  | succ fuel ih =>
    rw [Nat.sqrt.iter]
    simp only [natSqrtIter]
    by_cases h' : (guess + n / guess) / 2 < guess
    · simp only [h', if_true, dif_pos]
      exact ih _ (by omega)
    · simp only [h', if_false, dif_neg, not_false_iff]

theorem natSqrt_eq (n : Nat) : natSqrt n = Nat.sqrt n := by
  unfold natSqrt Nat.sqrt
  split
  · rfl
  · exact natSqrtIter_eq n n (n / 2) (by omega)

theorem sieveBound_ge_sqrt (x : Nat) : Nat.sqrt x ≤ sieveBound x := by
  unfold sieveBound
  rw [natSqrt_eq]
  have hs : 10 * Nat.sqrt x ≤ Nat.sqrt (100 * x) := by
    have h1 : Nat.sqrt (100 * (Nat.sqrt x * Nat.sqrt x)) ≤ Nat.sqrt (100 * x) := by
      apply Nat.sqrt_le_sqrt
      have := Nat.sqrt_le x
      omega
    have h2 : Nat.sqrt (10 * Nat.sqrt x * (10 * Nat.sqrt x)) = 10 * Nat.sqrt x :=
      Nat.sqrt_eq (10 * Nat.sqrt x)
    have h3 : 10 * Nat.sqrt x * (10 * Nat.sqrt x) = 100 * (Nat.sqrt x * Nat.sqrt x) := by
      ring
    rw [h3] at h2
    omega
  have h10 : (0 : Nat) < 10 := by omega
  split
  · rw [Nat.le_div_iff_mul_le h10]
    omega
  · rw [Nat.le_div_iff_mul_le h10]
    omega

theorem sieveBound_le (x : Nat) (hx : 1 ≤ x) : sieveBound x ≤ x := by
  unfold sieveBound
  rw [natSqrt_eq]
  have hsq : Nat.sqrt (100 * x) * Nat.sqrt (100 * x) ≤ 100 * x := Nat.sqrt_le (100 * x)
  have h10 : 10 ≤ Nat.sqrt (100 * x) := by
    have h1 : Nat.sqrt 100 ≤ Nat.sqrt (100 * x) := Nat.sqrt_le_sqrt (by omega)
    have h2 : Nat.sqrt 100 = 10 := by norm_num
    omega
  split
  · next heq =>
    have hle : Nat.sqrt (100 * x) ≤ 10 * x := by nlinarith
    calc Nat.sqrt (100 * x) / 10 ≤ 10 * x / 10 := Nat.div_le_div_right hle
    _ = x := by omega
  · next hne =>
    have hlt : Nat.sqrt (100 * x) < 10 * x := by
      rcases Nat.lt_or_ge (Nat.sqrt (100 * x)) (10 * x) with h | h
      · exact h
      · exfalso
        have hx2 : 100 * x ≤ 100 * (x * x) := by nlinarith
        have : 100 * (x * x) ≤ Nat.sqrt (100 * x) * Nat.sqrt (100 * x) := by nlinarith
        have heq : Nat.sqrt (100 * x) * Nat.sqrt (100 * x) = 100 * x := by omega
        exact hne heq
    have hle : Nat.sqrt (100 * x) + 1 ≤ 10 * x := by omega
    calc (Nat.sqrt (100 * x) + 1) / 10 ≤ 10 * x / 10 := Nat.div_le_div_right hle
    _ = x := by omega

theorem sieveBound_pos (x : Nat) (hx : 1 ≤ x) : 1 ≤ sieveBound x := by
  have h1 : 1 ≤ Nat.sqrt x := by
    have := (Nat.sqrt_pos (n := x)).mpr (by omega)
    omega
  have := sieveBound_ge_sqrt x
  omega

/-! ## Correctness of the sieve of Eratosthenes (`get_prime_bit_map`) -/

/-- Invariant of the outer sieve loop: after the iterations for all
values `< i` have run, an entry `k ≤ x` of the bitmap is cleared exactly
when `k` is 0, 1, or a multiple `p * t` (with `t ≥ p`) of a prime `p < i`. -/
def sieveGood (x i : Nat) (m : Nat → Bool) : Prop :=
  ∀ k, k ≤ x →
    (m k = false ↔ k = 0 ∨ k = 1 ∨ ∃ p, Nat.Prime p ∧ p < i ∧ p ∣ k ∧ p * p ≤ k)

theorem clearMultiples_false_iff (x i : Nat) (hi : 1 ≤ i) :
    ∀ fuel j (m : Nat → Bool) k, x + 1 ≤ fuel + j →
      (clearMultiples fuel x i j m k = false ↔
        m k = false ∨ ∃ t, j ≤ t ∧ i * t ≤ x ∧ k = i * t) := by
  intro fuel
  induction fuel with
  | zero =>
    intro j m k hf
    simp only [clearMultiples]
    constructor
    · intro h
      exact Or.inl h
    · rintro (h | ⟨t, htj, hle, hk⟩)
      · exact h
      · exfalso
        have : t ≤ i * t := Nat.le_mul_of_pos_left t (by omega)
        omega
  | succ fuel ih =>
    intro j m k hf
    simp only [clearMultiples]
    by_cases hij : i * j ≤ x
    · rw [if_pos hij, ih (j + 1) _ k (by omega)]
      constructor
      · rintro (hm | ⟨t, htj, hle, hk⟩)
        · by_cases hk : k = i * j
          · exact Or.inr ⟨j, le_refl j, by omega, hk⟩
          · rw [if_neg hk] at hm
            exact Or.inl hm
        · exact Or.inr ⟨t, by omega, hle, hk⟩
      · rintro (hm | ⟨t, htj, hle, hk⟩)
        · left
          by_cases hk : k = i * j
          · rw [if_pos hk]
          · rw [if_neg hk]; exact hm
        · rcases Nat.eq_or_lt_of_le htj with heq | hlt
          · left
            rw [if_pos (by rw [hk, heq])]
          · exact Or.inr ⟨t, by omega, hle, hk⟩
    · rw [if_neg hij]
      constructor
      · intro h
        exact Or.inl h
      · rintro (h | ⟨t, htj, hle, hk⟩)
        · exact h
        · exfalso
          have : i * j ≤ i * t := Nat.mul_le_mul_left i htj
          omega

theorem sieveGood_step (x bound i : Nat) (m : Nat → Bool) (hi2 : 2 ≤ i)
    (hib : i ≤ bound) (hbx : bound ≤ x) (hG : sieveGood x i m) :
    sieveGood x (i + 1) (if m i then clearMultiples (x + 1) x i i m else m) := by
  have hix : i ≤ x := le_trans hib hbx
  by_cases hmi : m i = true
  · rw [if_pos hmi]
    -- since `m i = true`, the invariant forces `i` to be prime
    have hiprime : Nat.Prime i := by
      by_contra hnp
      have hfac : Nat.minFac i * Nat.minFac i ≤ i := by
        have := Nat.minFac_sq_le_self (by omega) hnp
        nlinarith [sq (Nat.minFac i)]
      have hlt : Nat.minFac i < i := by
        have h2 := Nat.minFac_prime (n := i) (by omega)
        have := h2.two_le
        nlinarith
      have : m i = false := by
        rw [hG i hix]
        exact Or.inr (Or.inr ⟨Nat.minFac i, Nat.minFac_prime (by omega), hlt,
          Nat.minFac_dvd i, hfac⟩)
      rw [this] at hmi
      exact Bool.false_ne_true hmi
    intro k hk
    rw [clearMultiples_false_iff x i (by omega) (x + 1) i m k (by omega), hG k hk]
    constructor
    · rintro ((h0 | h1 | ⟨p, hp, hpi, hpd, hpp⟩) | ⟨t, hti, hle, hk⟩)
      · exact Or.inl h0
      · exact Or.inr (Or.inl h1)
      · exact Or.inr (Or.inr ⟨p, hp, by omega, hpd, hpp⟩)
      · refine Or.inr (Or.inr ⟨i, hiprime, by omega, ⟨t, hk⟩, ?_⟩)
        have : i * i ≤ i * t := Nat.mul_le_mul_left i hti
        omega
    · rintro (h0 | h1 | ⟨p, hp, hpi, hpd, hpp⟩)
      · exact Or.inl (Or.inl h0)
      · exact Or.inl (Or.inr (Or.inl h1))
      · by_cases hpi' : p < i
        · exact Or.inl (Or.inr (Or.inr ⟨p, hp, hpi', hpd, hpp⟩))
        · have hpeq : p = i := by omega
          subst hpeq
          obtain ⟨t, ht⟩ := hpd
          refine Or.inr ⟨t, ?_, by omega, ht⟩
          by_contra hti
          push_neg at hti
          have : p * t < p * p := by
            have hppos : 0 < p := by
              have := hp.two_le
              omega
            exact Nat.mul_lt_mul_of_le_of_lt (le_refl p) hti hppos
          omega
  · rw [if_neg hmi]
    have hmif : m i = false := by
      cases h : m i
      · rfl
      · exact absurd h hmi
    intro k hk
    rw [hG k hk]
    constructor
    · rintro (h0 | h1 | ⟨p, hp, hpi, hpd, hpp⟩)
      · exact Or.inl h0
      · exact Or.inr (Or.inl h1)
      · exact Or.inr (Or.inr ⟨p, hp, by omega, hpd, hpp⟩)
    · rintro (h0 | h1 | ⟨p, hp, hpi, hpd, hpp⟩)
      · exact Or.inl h0
      · exact Or.inr (Or.inl h1)
      · by_cases hpi' : p < i
        · exact Or.inr (Or.inr ⟨p, hp, hpi', hpd, hpp⟩)
        · exfalso
          have hpeq : p = i := by omega
          subst hpeq
          -- `p` prime but the invariant says `m p = false`, i.e. `p` has a
          -- smaller prime divisor: impossible
          have := (hG p hix).mp hmif
          rcases this with h0 | h1 | ⟨q, hq, hqp, hqd, hqq⟩
          · omega
          · omega
          · rcases (Nat.Prime.eq_one_or_self_of_dvd hp q hqd) with h | h
            · exact absurd h (Nat.Prime.ne_one hq)
            · omega

theorem sieveOuter_good (x bound : Nat) (hbx : bound ≤ x) :
    ∀ fuel i (m : Nat → Bool), 2 ≤ i → i ≤ bound + 1 → bound + 1 ≤ fuel + i →
      sieveGood x i m → sieveGood x (bound + 1) (sieveOuter fuel x bound i m) := by
  intro fuel
  induction fuel with
  | zero =>
    intro i m hi2 hib hf hG
    have : i = bound + 1 := by omega
    subst this
    simpa [sieveOuter] using hG
  | succ fuel ih =>
    intro i m hi2 hib hf hG
    simp only [sieveOuter]
    by_cases hibound : i ≤ bound
    · rw [if_pos hibound]
      exact ih (i + 1) _ (by omega) (by omega) (by omega)
        (sieveGood_step x bound i m hi2 hibound hbx hG)
    · rw [if_neg hibound]
      have : i = bound + 1 := by omega
      subst this
      exact hG

theorem sieveGood_final (x bound : Nat) (m : Nat → Bool)
    (hsq : Nat.sqrt x ≤ bound) (hG : sieveGood x (bound + 1) m) :
    ∀ k, k ≤ x → (m k = true ↔ Nat.Prime k) := by
  intro k hk
  constructor
  · intro htrue
    by_contra hnp
    have hfalse : m k = false := by
      rw [hG k hk]
      by_cases h2 : k ≤ 1
      · omega
      · have hkpos : 0 < k := by omega
        have hfac := Nat.minFac_sq_le_self hkpos hnp
        have hq := Nat.minFac_prime (n := k) (by omega)
        have hqk : Nat.minFac k * Nat.minFac k ≤ k := by nlinarith [sq (Nat.minFac k)]
        have hqb : Nat.minFac k ≤ bound := by
          have h1 : Nat.minFac k ≤ Nat.sqrt x := by
            rw [Nat.le_sqrt]
            omega
          omega
        exact Or.inr (Or.inr ⟨Nat.minFac k, hq, by omega, Nat.minFac_dvd k, hqk⟩)
    rw [hfalse] at htrue
    exact Bool.false_ne_true htrue
  · intro hp
    cases h : m k
    · exfalso
      have := (hG k hk).mp h
      rcases this with h0 | h1 | ⟨p, hpp, hpb, hpd, hpk⟩
      · subst h0; exact Nat.not_prime_zero hp
      · subst h1; exact Nat.not_prime_one hp
      · rcases Nat.Prime.eq_one_or_self_of_dvd hp p hpd with h | h
        · exact Nat.Prime.ne_one hpp h
        · subst h
          have := hp.two_le
          nlinarith
    · rfl

theorem get_prime_bit_map_spec (x : Nat) (hx : 1 ≤ x) :
    ∃ m, get_prime_bit_map x = some m ∧
      ∀ k, k ≤ x → (m k = true ↔ Nat.Prime k) := by
  have hpos : 1 < x + 1 := by omega
  have hmap : get_prime_bit_map x =
      some (sieveOuter (sieveBound x + 1) x (sieveBound x) 2
        (fun k => if k = 1 then false else if k = 0 then false else true)) := by
    unfold get_prime_bit_map
    rw [if_pos hpos]
  refine ⟨_, hmap, ?_⟩
  apply sieveGood_final x (sieveBound x) _ (sieveBound_ge_sqrt x)
  apply sieveOuter_good x (sieveBound x) (sieveBound_le x hx) (sieveBound x + 1) 2 _
    (by omega) (by have := sieveBound_pos x hx; omega) (by omega)
  intro k hk
  constructor
  · intro h
    by_cases h1 : k = 1
    · exact Or.inr (Or.inl h1)
    · by_cases h0 : k = 0
      · exact Or.inl h0
      · simp [h1, h0] at h
  · rintro (h0 | h1 | ⟨p, hp, hp2, _, _⟩)
    · subst h0; simp
    · subst h1; simp
    · exfalso
      have := hp.two_le
      omega

/-- Characterization of `get_primes_less_than_x`: for `x ≥ 1` it returns
the strictly increasing list of exactly the primes below `x`. -/
theorem get_primes_less_than_x_spec (x : Nat) (hx : 1 ≤ x) :
    ∃ l, get_primes_less_than_x x = some l ∧ l.Sorted (· < ·) ∧
      ∀ n, n ∈ l ↔ n < x ∧ Nat.Prime n := by
  obtain ⟨m, hm, hchar⟩ := get_prime_bit_map_spec x hx
  refine ⟨(List.range x).filter m, by simp [get_primes_less_than_x, hm], ?_, ?_⟩
  · exact List.Pairwise.filter m (List.pairwise_lt_range x)
  · intro n
    rw [List.mem_filter, List.mem_range]
    constructor
    · rintro ⟨hn, hmn⟩
      exact ⟨hn, (hchar n (by omega)).mp hmn⟩
    · rintro ⟨hn, hp⟩
      exact ⟨hn, (hchar n (by omega)).mpr hp⟩

/-! ## Correctness of the offset sieve (`get_primes_between`) -/

theorem offsetClearLoop_false_iff (true_min max p : Nat) (hp : 1 ≤ p) :
    ∀ fuel val (m : Nat → Bool) k, max ≤ fuel + val →
      (offsetClearLoop fuel true_min max p val m k = false ↔
        m k = false ∨ ∃ j, val + j * p < max ∧ k = (val + j * p) - true_min) := by
  intro fuel
  induction fuel with
  | zero =>
    intro val m k hf
    simp only [offsetClearLoop]
    constructor
    · intro h
      exact Or.inl h
    · rintro (h | ⟨j, hj, hk⟩)
      · exact h
      · omega
  | succ fuel ih =>
    intro val m k hf
    simp only [offsetClearLoop]
    by_cases hv : val < max
    · rw [if_pos hv, ih (val + p) _ k (by omega)]
      constructor
      · rintro (hm | ⟨j, hj, hk⟩)
        · by_cases hk0 : k = val - true_min
          · exact Or.inr ⟨0, by omega, by omega⟩
          · rw [if_neg hk0] at hm
            exact Or.inl hm
        · refine Or.inr ⟨j + 1, ?_, ?_⟩
          · have : (j + 1) * p = j * p + p := by ring
            omega
          · have : (j + 1) * p = j * p + p := by ring
            omega
      · rintro (hm | ⟨j, hj, hk⟩)
        · left
          by_cases hk0 : k = val - true_min
          · rw [if_pos hk0]
          · rw [if_neg hk0]; exact hm
        · rcases j with _ | j
          · left
            rw [if_pos (by omega)]
          · refine Or.inr ⟨j, ?_, ?_⟩
            · have : (j + 1) * p = j * p + p := by ring
              omega
            · have : (j + 1) * p = j * p + p := by ring
              omega
    · rw [if_neg hv]
      constructor
      · intro h
        exact Or.inl h
      · rintro (h | ⟨j, hj, hk⟩)
        · exact h
        · omega

theorem clearPrimeMultiples_start (true_min max p : Nat) (m : Nat → Bool)
    (hp : 2 ≤ p) (htm : 2 ≤ true_min) :
    ∃ s, clearPrimeMultiples true_min max p m = offsetClearLoop (max + 1) true_min max p s m ∧
      true_min ≤ s ∧ p ∣ s ∧ p < s ∧
      (∀ v, p ∣ v → true_min ≤ v → v ≠ p → s ≤ v) := by
  simp only [clearPrimeMultiples]
  have hdm := Nat.div_add_mod true_min p
  have hmod : true_min % p < p := Nat.mod_lt true_min (by omega)
  have hdiv_le : true_min / p * p ≤ true_min := Nat.div_mul_le_self true_min p
  have hcomm : true_min / p * p = p * (true_min / p) := by ring
  by_cases h1 : p < true_min
  · rw [if_pos h1, if_neg (by omega : ¬ true_min ≤ p)]
    have hqpos : 1 ≤ true_min / p := by
      rw [Nat.one_le_div_iff (by omega)]
      omega
    by_cases h0 : true_min / p * p < true_min
    · rw [if_pos h0]
      refine ⟨true_min / p * p + p, rfl, by omega, ⟨true_min / p + 1, by ring⟩, by nlinarith, ?_⟩
      intro v hv hvtm hvp
      obtain ⟨c, hc⟩ := hv
      have hcgt : true_min / p < c := by
        have hlt : p * (true_min / p) < p * c := by omega
        exact Nat.lt_of_mul_lt_mul_left hlt
      have hmm : p * (true_min / p + 1) ≤ p * c := Nat.mul_le_mul_left p (by omega)
      have hdist : p * (true_min / p + 1) = p * (true_min / p) + p := by ring
      omega
    · rw [if_neg h0]
      have heq : true_min / p * p = true_min := by omega
      refine ⟨true_min / p * p, rfl, by omega, ⟨true_min / p, by ring⟩, by omega, ?_⟩
      intro v hv hvtm hvp
      omega
  · rw [if_neg h1, if_pos (by omega : true_min ≤ p), if_neg (by omega : ¬ 1 * p + p < true_min)]
    refine ⟨1 * p + p, rfl, by omega, ⟨2, by ring⟩, by omega, ?_⟩
    intro v hv hvtm hvp
    obtain ⟨c, hc⟩ := hv
    rcases c with _ | _ | c
    · omega
    · omega
    · have hmm : p * 2 ≤ p * (c + 2) := Nat.mul_le_mul_left p (by omega)
      have hfix : p * (c + 1 + 1) = p * (c + 2) := by ring
      omega

theorem clearPrimeMultiples_false_iff (true_min max p : Nat) (m : Nat → Bool)
    (hp : 2 ≤ p) (htm : 2 ≤ true_min) (v : Nat) (hv1 : true_min ≤ v) (hv2 : v < max) :
    (clearPrimeMultiples true_min max p m (v - true_min) = false ↔
      m (v - true_min) = false ∨ (p ∣ v ∧ v ≠ p)) := by
  obtain ⟨s, heq, hstm, hsdvd, hsp, hleast⟩ :=
    clearPrimeMultiples_start true_min max p m hp htm
  rw [heq, offsetClearLoop_false_iff true_min max p (by omega) (max + 1) s m _ (by omega)]
  constructor
  · rintro (hm | ⟨j, hj, hk⟩)
    · exact Or.inl hm
    · right
      have hveq : v = s + j * p := by omega
      constructor
      · rw [hveq]
        exact Nat.dvd_add hsdvd (dvd_mul_left p j)
      · omega
  · rintro (hm | ⟨hdvd, hne⟩)
    · exact Or.inl hm
    · right
      have hsv : s ≤ v := hleast v hdvd hv1 hne
      obtain ⟨c, hc⟩ := hdvd
      obtain ⟨c0, hc0⟩ := hsdvd
      have hcc : c0 ≤ c := by
        have : p * c0 ≤ p * c := by omega
        exact Nat.le_of_mul_le_mul_left this (by omega)
      refine ⟨c - c0, ?_, ?_⟩
      · have : (c - c0) * p = c * p - c0 * p := by
          rw [Nat.sub_mul]
        have h2 : c * p = p * c := by ring
        have h3 : c0 * p = p * c0 := by ring
        omega
      · have : (c - c0) * p = c * p - c0 * p := by
          rw [Nat.sub_mul]
        have h2 : c * p = p * c := by ring
        have h3 : c0 * p = p * c0 := by ring
        omega

theorem offsetSieve_false_iff (true_min max : Nat) (htm : 2 ≤ true_min) :
    ∀ (l : List Nat) (m : Nat → Bool) v, (∀ q ∈ l, 2 ≤ q) → true_min ≤ v → v < max →
      (offsetSieve true_min max l m (v - true_min) = false ↔
        m (v - true_min) = false ∨ ∃ q ∈ l, q ∣ v ∧ v ≠ q) := by
  intro l
  induction l with
  | nil =>
    intro m v _ _ _
    simp [offsetSieve]
  | cons p rest ih =>
    intro m v hq hv1 hv2
    simp only [offsetSieve]
    rw [ih _ v (fun q hmem => hq q (by simp [hmem])) hv1 hv2,
      clearPrimeMultiples_false_iff true_min max p m (hq p (by simp)) htm v hv1 hv2]
    constructor
    · rintro ((hm | hpv) | ⟨q, hqmem, hqv⟩)
      · exact Or.inl hm
      · exact Or.inr ⟨p, by simp, hpv⟩
      · exact Or.inr ⟨q, by simp [hqmem], hqv⟩
    · rintro (hm | ⟨q, hqmem, hqv⟩)
      · exact Or.inl (Or.inl hm)
      · rcases List.mem_cons.mp hqmem with hqp | hqrest
        · subst hqp
          exact Or.inl (Or.inr hqv)
        · exact Or.inr ⟨q, hqrest, hqv⟩

/-- Characterization of `get_primes_between`: for `min ≤ max`, `2 ≤ max`
and `max ≤ 2^52` (the range on which the `f64` square-root model is
exact), it returns the strictly increasing list of exactly the primes
`v` with `max(min, 2) ≤ v < max`. -/
theorem get_primes_between_spec (mn mx : Nat) (h1 : mn ≤ mx) (h2 : 2 ≤ mx)
    (h3 : mx ≤ 4503599627370496) :
    ∃ l, get_primes_between mn mx = some l ∧ l.Sorted (· < ·) ∧
      ∀ v, v ∈ l ↔ ((if mn < 2 then 2 else mn) ≤ v ∧ v < mx ∧ Nat.Prime v) := by
  have htm2 : 2 ≤ (if mn < 2 then 2 else mn) := by
    split
    · omega
    · omega
  have htmmx : (if mn < 2 then 2 else mn) ≤ mx := by
    split
    · omega
    · omega
  set tm := if mn < 2 then 2 else mn with htm
  have hsqle : Nat.sqrt mx ≤ 67108864 := by
    have hmono : Nat.sqrt mx ≤ Nat.sqrt 4503599627370496 := Nat.sqrt_le_sqrt h3
    have heq : Nat.sqrt 4503599627370496 = 67108864 := by norm_num
    omega
  have hnooverflow : ¬ 4294967296 ≤ natSqrt mx + 1 := by
    rw [natSqrt_eq]
    omega
  obtain ⟨l0, hl0, hl0sorted, hl0mem⟩ :=
    get_primes_less_than_x_spec (natSqrt mx + 1) (by omega)
  have hl0two : ∀ q ∈ l0, 2 ≤ q := by
    intro q hq
    exact ((hl0mem q).mp hq).2.two_le
  have hmaxtm : ¬ mx < tm := by omega
  refine ⟨(List.range' tm (mx - tm)).filter
      (fun v => offsetSieve tm mx l0 (fun _ => true) (v - tm)), ?_, ?_, ?_⟩
  · simp only [get_primes_between, hl0, ← htm, if_neg hnooverflow, if_neg hmaxtm]
  · exact List.Pairwise.filter _ (List.pairwise_lt_range' tm (mx - tm))
  · intro v
    rw [List.mem_filter, List.mem_range'_1]
    constructor
    · rintro ⟨⟨hv1, hv2⟩, hmv⟩
      have hv2' : v < mx := by omega
      refine ⟨hv1, hv2', ?_⟩
      by_contra hnp
      have : offsetSieve tm mx l0 (fun _ => true) (v - tm) = false := by
        rw [offsetSieve_false_iff tm mx htm2 l0 _ v hl0two hv1 hv2']
        right
        have hv2le : 2 ≤ v := by omega
        have hq := Nat.minFac_prime (n := v) (by omega)
        have hqd := Nat.minFac_dvd v
        have hqsq : Nat.minFac v * Nat.minFac v ≤ v :=
          by nlinarith [Nat.minFac_sq_le_self (by omega : 0 < v) hnp, sq (Nat.minFac v)]
        have hqlt : Nat.minFac v < v := by nlinarith [hq.two_le]
        refine ⟨Nat.minFac v, ?_, hqd, by omega⟩
        rw [hl0mem]
        refine ⟨?_, hq⟩
        rw [natSqrt_eq]
        have : Nat.minFac v ≤ Nat.sqrt mx := by
          rw [Nat.le_sqrt]
          omega
        omega
      rw [this] at hmv
      exact Bool.false_ne_true hmv
    · rintro ⟨hv1, hv2, hp⟩
      refine ⟨⟨hv1, by omega⟩, ?_⟩
      cases hfalse : offsetSieve tm mx l0 (fun _ => true) (v - tm)
      · exfalso
        rw [offsetSieve_false_iff tm mx htm2 l0 _ v hl0two hv1 hv2] at hfalse
        rcases hfalse with h | ⟨q, hqmem, hqv, hvq⟩
        · simp at h
        · have hqp : Nat.Prime q := ((hl0mem q).mp hqmem).2
          rcases hp.eq_one_or_self_of_dvd q hqv with h | h
          · exact hqp.ne_one h
          · exact hvq h.symm
      · rfl

/-! ## Correctness of the wheel-of-6 trial division (`is_u32_prime`) -/

theorem u32WheelLoop_correct (x : Nat) (hx5 : 5 ≤ x) (hx2 : ¬ 2 ∣ x) (hx3 : ¬ 3 ∣ x)
    (hxb : x < 4294574089) :
    ∀ fuel i w, ((w = 2 ∧ i % 6 = 5) ∨ (w = 4 ∧ i % 6 = 1)) → 5 ≤ i → i ≤ 65535 →
      (∀ d, 2 ≤ d → d < i → ¬ d ∣ x) → 65537 ≤ 2 * fuel + i →
      ∃ b, u32WheelLoop fuel x i w = some b ∧ (b = true ↔ Nat.Prime x) := by
  intro fuel
  induction fuel with
  | zero =>
    intro i w hw hi5 hile hdiv hfuel
    omega
  | succ fuel ih =>
    intro i w hw hi5 hile hdiv hfuel
    have hsq : i * i ≤ 65535 * 65535 := Nat.mul_le_mul hile hile
    simp only [u32WheelLoop]
    rw [if_neg (by omega : ¬ 4294967296 ≤ i * i)]
    by_cases hxi : x < i * i
    · rw [if_pos hxi]
      refine ⟨true, rfl, ?_⟩
      simp only [true_iff]
      rw [Nat.prime_def_le_sqrt]
      refine ⟨by omega, ?_⟩
      intro d hd2 hdsq
      have hdd : d * d ≤ x := by
        rw [Nat.le_sqrt] at hdsq
        exact hdsq
      have hdi : d < i := by
        by_contra hge
        push_neg at hge
        have : i * i ≤ d * d := Nat.mul_le_mul hge hge
        omega
      exact hdiv d hd2 hdi
    · rw [if_neg hxi]
      by_cases hmod : x % i = 0
      · rw [if_pos hmod]
        refine ⟨false, rfl, ?_⟩
        simp only [Bool.false_eq_true, false_iff]
        intro hp
        have hidvd : i ∣ x := (Nat.dvd_iff_mod_eq_zero).mpr hmod
        rcases hp.eq_one_or_self_of_dvd i hidvd with h | h
        · omega
        · have : i < i * i := by nlinarith
          omega
      · rw [if_neg hmod]
        have hii : i * i ≤ x := by omega
        have hi65533 : i < 65533 := by
          by_contra hge
          push_neg at hge
          have : 65533 * 65533 ≤ i * i := Nat.mul_le_mul hge hge
          omega
        have hiodd : i % 2 = 1 := by
          rcases hw with ⟨_, h6⟩ | ⟨_, h6⟩ <;> omega
        apply ih (i + w)
        · rcases hw with ⟨hw2, h6⟩ | ⟨hw4, h6⟩
          · exact Or.inr ⟨by omega, by omega⟩
          · exact Or.inl ⟨by omega, by omega⟩
        · omega
        · rcases hw with ⟨hw2, _⟩ | ⟨hw4, _⟩ <;> omega
        · intro d hd2 hdlt
          by_cases hdi : d < i
          · exact hdiv d hd2 hdi
          · by_cases hdei : d = i
            · subst hdei
              intro hdvd
              rw [Nat.dvd_iff_mod_eq_zero] at hdvd
              exact hmod hdvd
            · -- `i < d < i + w`: the skipped values are divisible by 2 or 3
              have hdgt : i < d := by omega
              have h23 : 2 ∣ d ∨ 3 ∣ d := by
                rcases hw with ⟨hw2, h6⟩ | ⟨hw4, h6⟩ <;> omega
              intro hdvd
              rcases h23 with h2 | h3
              · exact hx2 (dvd_trans h2 hdvd)
              · exact hx3 (dvd_trans h3 hdvd)
        · rcases hw with ⟨hw2, _⟩ | ⟨hw4, _⟩ <;> omega

/-- Characterization of `is_u32_prime`: below `65533² = 4294574089` (the
least input at which the trial-division loop can reach the overflowing
multiplication `65537 * 65537`) it returns `some` of the primality
verdict. -/
theorem is_u32_prime_spec (x : Nat) (hx : x < 4294574089) :
    ∃ b, is_u32_prime x = some b ∧ (b = true ↔ Nat.Prime x) := by
  unfold is_u32_prime is_u32_definitely_composite
  by_cases h2 : x < 2
  · rw [if_pos h2]
    refine ⟨false, rfl, ?_⟩
    simp only [Bool.false_eq_true, false_iff]
    intro hp
    have := hp.two_le
    omega
  · rw [if_neg h2, if_neg (by simp)]
    unfold is_u32_definately_prime
    by_cases h23 : x = 2 ∨ x = 3
    · rw [if_pos h23]
      refine ⟨true, rfl, ?_⟩
      simp only [true_iff]
      rcases h23 with h | h
      · subst h; exact Nat.prime_two
      · subst h; exact Nat.prime_three
    · rw [if_neg h23]
      by_cases hmod : x % 2 = 0 ∨ x % 3 = 0
      · rw [if_pos hmod]
        refine ⟨false, rfl, ?_⟩
        simp only [Bool.false_eq_true, false_iff]
        intro hp
        rcases hmod with h | h
        · have hdvd : 2 ∣ x := (Nat.dvd_iff_mod_eq_zero).mpr h
          rcases hp.eq_one_or_self_of_dvd 2 hdvd with he | he <;> omega
        · have hdvd : 3 ∣ x := (Nat.dvd_iff_mod_eq_zero).mpr h
          rcases hp.eq_one_or_self_of_dvd 3 hdvd with he | he <;> omega
      · rw [if_neg hmod]
        push_neg at hmod
        have hx2 : ¬ 2 ∣ x := by
          rw [Nat.dvd_iff_mod_eq_zero]
          exact hmod.1
        have hx3 : ¬ 3 ∣ x := by
          rw [Nat.dvd_iff_mod_eq_zero]
          exact hmod.2
        have hx5 : 5 ≤ x := by
          push_neg at h23
          have := hmod.1
          omega
        apply u32WheelLoop_correct x hx5 hx2 hx3 hx 65536 5 2
          (Or.inl ⟨rfl, rfl⟩) (by omega) (by omega)
        · intro d hd2 hdlt
          interval_cases d
          · exact hx2
          · exact hx3
          · intro h4
            exact hx2 (dvd_trans (by norm_num) h4)
        · omega

/-! ## The trial-division loop panics on large primes

For `x = 4294967291` (which is `2^32 - 5`, a prime) the loop of
`is_u32_definately_prime` finds no divisor, so `i` reaches `65537` and
the u32 multiplication `i * i` overflows.  The divisor-freeness facts are
established by `decide` in chunks of 1024 to keep kernel recursion
shallow. -/

/-- The wheel candidates `a + 6j` and `a + 6j + 2` for `j < n` (the values
congruent to 5 and 1 modulo 6 when `a ≡ 5 (mod 6)`) do not divide `N`. -/
def noDivPairs (a n N : Nat) : Prop :=
  ∀ j, j < n → ¬ (a + 6 * j) ∣ N ∧ ¬ (a + 6 * j + 2) ∣ N

theorem noDivPairs_glue {N a n b m c : Nat} (hb : b = a + 6 * n) (hc : c = n + m)
    (h1 : noDivPairs a n N) (h2 : noDivPairs b m N) : noDivPairs a c N := by
  intro j hj
  by_cases hjn : j < n
  · exact h1 j hjn
  · have h := h2 (j - n) (by omega)
    have e1 : b + 6 * (j - n) = a + 6 * j := by omega
    rw [e1] at h
    exact h

theorem noDivPairs_4294967291 : noDivPairs 5 10922 4294967291 := by
  have c0 : noDivPairs 5 1024 4294967291 := by unfold noDivPairs; decide
  have c1 : noDivPairs 6149 1024 4294967291 := by unfold noDivPairs; decide
  have c2 : noDivPairs 12293 1024 4294967291 := by unfold noDivPairs; decide
  have c3 : noDivPairs 18437 1024 4294967291 := by unfold noDivPairs; decide
  have c4 : noDivPairs 24581 1024 4294967291 := by unfold noDivPairs; decide
  have c5 : noDivPairs 30725 1024 4294967291 := by unfold noDivPairs; decide
  have c6 : noDivPairs 36869 1024 4294967291 := by unfold noDivPairs; decide
  have c7 : noDivPairs 43013 1024 4294967291 := by unfold noDivPairs; decide
  have c8 : noDivPairs 49157 1024 4294967291 := by unfold noDivPairs; decide
  have c9 : noDivPairs 55301 1024 4294967291 := by unfold noDivPairs; decide
  have c10 : noDivPairs 61445 682 4294967291 := by unfold noDivPairs; decide
  have g1 : noDivPairs 5 2048 4294967291 :=
    noDivPairs_glue (by norm_num) (by norm_num) c0 c1
  have g2 : noDivPairs 5 3072 4294967291 :=
    noDivPairs_glue (by norm_num) (by norm_num) g1 c2
  have g3 : noDivPairs 5 4096 4294967291 :=
    noDivPairs_glue (by norm_num) (by norm_num) g2 c3
  have g4 : noDivPairs 5 5120 4294967291 :=
    noDivPairs_glue (by norm_num) (by norm_num) g3 c4
  have g5 : noDivPairs 5 6144 4294967291 :=
    noDivPairs_glue (by norm_num) (by norm_num) g4 c5
  have g6 : noDivPairs 5 7168 4294967291 :=
    noDivPairs_glue (by norm_num) (by norm_num) g5 c6
  have g7 : noDivPairs 5 8192 4294967291 :=
    noDivPairs_glue (by norm_num) (by norm_num) g6 c7
  have g8 : noDivPairs 5 9216 4294967291 :=
    noDivPairs_glue (by norm_num) (by norm_num) g7 c8
  have g9 : noDivPairs 5 10240 4294967291 :=
    noDivPairs_glue (by norm_num) (by norm_num) g8 c9
  exact noDivPairs_glue (by norm_num) (by norm_num) g9 c10

theorem noDivPairs_982451653 : noDivPairs 5 5224 982451653 := by
  have c0 : noDivPairs 5 1024 982451653 := by unfold noDivPairs; decide
  have c1 : noDivPairs 6149 1024 982451653 := by unfold noDivPairs; decide
  have c2 : noDivPairs 12293 1024 982451653 := by unfold noDivPairs; decide
  have c3 : noDivPairs 18437 1024 982451653 := by unfold noDivPairs; decide
  have c4 : noDivPairs 24581 1024 982451653 := by unfold noDivPairs; decide
  have c5 : noDivPairs 30725 104 982451653 := by unfold noDivPairs; decide
  have g1 : noDivPairs 5 2048 982451653 :=
    noDivPairs_glue (by norm_num) (by norm_num) c0 c1
  have g2 : noDivPairs 5 3072 982451653 :=
    noDivPairs_glue (by norm_num) (by norm_num) g1 c2
  have g3 : noDivPairs 5 4096 982451653 :=
    noDivPairs_glue (by norm_num) (by norm_num) g2 c3
  have g4 : noDivPairs 5 5120 982451653 :=
    noDivPairs_glue (by norm_num) (by norm_num) g3 c4
  exact noDivPairs_glue (by norm_num) (by norm_num) g4 c5

/-- At the prime `982451653` the wheel loop runs to `i = 31345`
(`31345² > 982451653`) without finding a divisor and answers `true`. -/
theorem u32WheelLoop_true_982451653 :
    ∀ fuel i w, ((w = 2 ∧ i % 6 = 5) ∨ (w = 4 ∧ i % 6 = 1)) → 5 ≤ i → i ≤ 31349 →
      31351 ≤ 2 * fuel + i →
      u32WheelLoop fuel 982451653 i w = some true := by
  have hnod : ∀ d, 5 ≤ d → d ≤ 31344 → d % 6 = 5 ∨ d % 6 = 1 →
      ¬ d ∣ 982451653 := by
    intro d hd5 hdle hd6
    rcases hd6 with h5 | h1
    · obtain ⟨j, hj⟩ : ∃ j, d = 5 + 6 * j := ⟨(d - 5) / 6, by omega⟩
      have := (noDivPairs_982451653 j (by omega)).1
      rwa [← hj] at this
    · obtain ⟨j, hj⟩ : ∃ j, d = 5 + 6 * j + 2 := ⟨(d - 7) / 6, by omega⟩
      have := (noDivPairs_982451653 j (by omega)).2
      rwa [← hj] at this
  intro fuel
  induction fuel with
  | zero =>
    intro i w hw hi5 hile hfuel
    omega
  | succ fuel ih =>
    intro i w hw hi5 hile hfuel
    have hsq : i * i ≤ 31349 * 31349 := Nat.mul_le_mul hile hile
    simp only [u32WheelLoop]
    rw [if_neg (by omega : ¬ 4294967296 ≤ i * i)]
    by_cases hxi : 982451653 < i * i
    · rw [if_pos hxi]
    · rw [if_neg hxi]
      have hi31344 : i ≤ 31344 := by
        by_contra hgt
        push_neg at hgt
        have : 31345 * 31345 ≤ i * i := Nat.mul_le_mul hgt hgt
        omega
      have hmod : ¬ 982451653 % i = 0 := by
        intro h
        exact hnod i hi5 hi31344 (by rcases hw with ⟨_, h6⟩ | ⟨_, h6⟩ <;> omega)
          ((Nat.dvd_iff_mod_eq_zero).mpr h)
      rw [if_neg hmod]
      apply ih
      · rcases hw with ⟨hw2, h6⟩ | ⟨hw4, h6⟩
        · exact Or.inr ⟨by omega, by omega⟩
        · exact Or.inl ⟨by omega, by omega⟩
      · rcases hw with ⟨hw2, _⟩ | ⟨hw4, _⟩ <;> omega
      · rcases hw with ⟨hw2, _⟩ | ⟨hw4, _⟩ <;> omega
      · rcases hw with ⟨hw2, _⟩ | ⟨hw4, _⟩ <;> omega

theorem u32WheelLoop_panics_4294967291 :
    ∀ fuel i w, ((w = 2 ∧ i % 6 = 5) ∨ (w = 4 ∧ i % 6 = 1)) → 5 ≤ i →
      u32WheelLoop fuel 4294967291 i w = none := by
  have hnod : ∀ d, 5 ≤ d → d ≤ 65535 → d % 6 = 5 ∨ d % 6 = 1 →
      ¬ d ∣ 4294967291 := by
    intro d hd5 hdle hd6
    rcases hd6 with h5 | h1
    · obtain ⟨j, hj⟩ : ∃ j, d = 5 + 6 * j := ⟨(d - 5) / 6, by omega⟩
      have := (noDivPairs_4294967291 j (by omega)).1
      rwa [← hj] at this
    · obtain ⟨j, hj⟩ : ∃ j, d = 5 + 6 * j + 2 := ⟨(d - 7) / 6, by omega⟩
      have := (noDivPairs_4294967291 j (by omega)).2
      rwa [← hj] at this
  intro fuel
  induction fuel with
  | zero =>
    intro i w hw hi5
    rfl
  | succ fuel ih =>
    intro i w hw hi5
    simp only [u32WheelLoop]
    by_cases hbig : 65536 ≤ i
    · rw [if_pos (by have := Nat.mul_le_mul hbig hbig; omega)]
    · push_neg at hbig
      have hile : i ≤ 65535 := by omega
      have hsq : i * i ≤ 65535 * 65535 := Nat.mul_le_mul hile hile
      rw [if_neg (by omega : ¬ 4294967296 ≤ i * i),
        if_neg (by omega : ¬ 4294967291 < i * i)]
      have hmod : ¬ 4294967291 % i = 0 := by
        intro h
        exact hnod i hi5 hile (by rcases hw with ⟨_, h6⟩ | ⟨_, h6⟩ <;> omega)
          ((Nat.dvd_iff_mod_eq_zero).mpr h)
      rw [if_neg hmod]
      apply ih
      · rcases hw with ⟨hw2, h6⟩ | ⟨hw4, h6⟩
        · exact Or.inr ⟨by omega, by omega⟩
        · exact Or.inl ⟨by omega, by omega⟩
      · rcases hw with ⟨hw2, _⟩ | ⟨hw4, _⟩ <;> omega

/-! ## Factorization lemmas (`get_prime_factors_with_counts`) -/

theorem divideOut_spec (p : Nat) (hp : 2 ≤ p) :
    ∀ fuel d c, 1 ≤ d → d ≤ fuel →
      ∃ k e, divideOut fuel p d c = (e, c + k) ∧ d = p ^ k * e ∧ ¬ p ∣ e ∧ 1 ≤ e := by
  intro fuel
  induction fuel with
  | zero =>
    intro d c hd hdf
    omega
  | succ fuel ih =>
    intro d c hd hdf
    simp only [divideOut]
    by_cases hmod : d % p = 0
    · rw [if_pos hmod]
      have hdvd : p ∣ d := (Nat.dvd_iff_mod_eq_zero).mpr hmod
      have hdp1 : 1 ≤ d / p := by
        rw [Nat.one_le_div_iff (by omega)]
        exact Nat.le_of_dvd (by omega) hdvd
      have hdplt : d / p < d := Nat.div_lt_self (by omega) (by omega)
      obtain ⟨k, e, heq, hfact, hnd, hepos⟩ := ih (d / p) (c + 1) hdp1 (by omega)
      refine ⟨k + 1, e, ?_, ?_, hnd, hepos⟩
      · rw [heq]
        congr 1
        omega
      · have hcancel : p * (d / p) = d := Nat.mul_div_cancel' hdvd
        calc d = p * (d / p) := hcancel.symm
        _ = p * (p ^ k * e) := by rw [hfact]
        _ = p ^ (k + 1) * e := by ring
    · rw [if_neg hmod]
      refine ⟨0, d, by simp, by simp, ?_, hd⟩
      intro hdvd
      rw [Nat.dvd_iff_mod_eq_zero] at hdvd
      exact hmod hdvd

theorem prodPow_append (l1 l2 : List (Nat × Nat)) :
    prodPow (l1 ++ l2) = prodPow l1 * prodPow l2 := by
  unfold prodPow
  rw [List.map_append, List.prod_append]

theorem getPrimeFactorsLoop_prod :
    ∀ (l : List Nat) (drop : Nat) (acc : List (Nat × Nat)),
      (∀ p ∈ l, 2 ≤ p) → 1 ≤ drop →
      (∀ q, Nat.Prime q → q ∣ drop → q ∈ l) →
      ∃ out, getPrimeFactorsLoop drop l acc = some (1, out) ∧
        prodPow out = prodPow acc * drop := by
  intro l
  induction l with
  | nil =>
    intro drop acc _ hd hcov
    have hdrop1 : drop = 1 := by
      by_contra hne
      obtain ⟨q, hq, hqd⟩ := Nat.exists_prime_and_dvd hne
      exact absurd (hcov q hq hqd) (List.not_mem_nil q)
    subst hdrop1
    exact ⟨acc, rfl, by omega⟩
  | cons p rest ih =>
    intro drop acc hl hd hcov
    by_cases hd1 : drop ≤ 1
    · have hdrop1 : drop = 1 := by omega
      subst hdrop1
      refine ⟨acc, ?_, by omega⟩
      simp only [getPrimeFactorsLoop]
      rw [if_pos (by omega)]
    · have hp2 : 2 ≤ p := hl p (by simp)
      simp only [getPrimeFactorsLoop]
      rw [if_neg hd1, if_neg (by omega : ¬ p = 0), if_neg (by omega : ¬ p = 1)]
      obtain ⟨k, e, heq, hfact, hnd, hepos⟩ := divideOut_spec p hp2 drop drop 0 (by omega) le_rfl
      rw [heq]
      have hedvd : e ∣ drop := ⟨p ^ k, by rw [hfact]; ring⟩
      have hcov' : ∀ q, Nat.Prime q → q ∣ e → q ∈ rest := by
        intro q hq hqe
        have hqdrop : q ∣ drop := dvd_trans hqe hedvd
        rcases List.mem_cons.mp (hcov q hq hqdrop) with hqp | hqrest
        · exfalso
          subst hqp
          exact hnd hqe
        · exact hqrest
      obtain ⟨out, hout, hprod⟩ :=
        ih e (if 0 + k ≠ 0 then acc ++ [(p, 0 + k)] else acc)
          (fun q hq => hl q (by simp [hq])) hepos hcov'
      refine ⟨out, hout, ?_⟩
      rw [hprod]
      by_cases hk : k = 0
      · subst hk
        simp only [Nat.zero_add, ne_eq, not_true_eq_false, if_false]
        rw [hfact]
        simp
      · rw [if_pos (by omega), prodPow_append]
        have hsingle : prodPow [(p, 0 + k)] = p ^ k := by
          simp [prodPow]
        rw [hsingle, hfact]
        ring

theorem getPrimeFactorsLoop_nodiv (x : Nat) (hx : 2 ≤ x) :
    ∀ (l : List Nat) (acc : List (Nat × Nat)),
      (∀ p ∈ l, ¬ p ∣ x ∧ p ≠ 0) →
      getPrimeFactorsLoop x l acc = some (x, acc) := by
  intro l
  induction l with
  | nil =>
    intro acc _
    rfl
  | cons p rest ih =>
    intro acc hl
    have hp := hl p (by simp)
    have hp1 : p ≠ 1 := by
      intro h
      subst h
      exact hp.1 (one_dvd x)
    have hp2 : 2 ≤ p := by omega
    simp only [getPrimeFactorsLoop]
    rw [if_neg (by omega : ¬ x ≤ 1), if_neg hp.2, if_neg hp1]
    obtain ⟨k, e, heq, hfact, hnd, hepos⟩ := divideOut_spec p hp2 x x 0 (by omega) le_rfl
    have hk0 : k = 0 := by
      by_contra hkne
      have : p ∣ x := by
        rw [hfact]
        exact Dvd.dvd.mul_right (dvd_pow_self p hkne) e
      exact hp.1 this
    subst hk0
    have he : e = x := by
      rw [hfact]
      ring
    rw [heq]
    simp only [Nat.zero_add, ne_eq, not_true_eq_false, if_false]
    rw [he]
    exact ih acc (fun q hq => hl q (by simp [hq]))

theorem getPrimeFactorsLoop_props (x : Nat) (P : List Nat) :
    ∀ (l : List Nat) (drop : Nat) (acc : List (Nat × Nat)),
      (∀ p ∈ l, 2 ≤ p) → (∀ p ∈ l, p ∈ P) → 1 ≤ drop → drop ∣ x →
      (∀ kv ∈ acc, 1 ≤ kv.2 ∧ kv.1 ∣ x ∧ kv.1 ∈ P) →
      ∃ d out, getPrimeFactorsLoop drop l acc = some (d, out) ∧
        ∀ kv ∈ out, 1 ≤ kv.2 ∧ kv.1 ∣ x ∧ kv.1 ∈ P := by
  intro l
  induction l with
  | nil =>
    intro drop acc _ _ _ _ hacc
    exact ⟨drop, acc, rfl, hacc⟩
  | cons p rest ih =>
    intro drop acc hl hlP hd hddvd hacc
    by_cases hd1 : drop ≤ 1
    · refine ⟨drop, acc, ?_, hacc⟩
      simp only [getPrimeFactorsLoop]
      rw [if_pos hd1]
    · have hp2 : 2 ≤ p := hl p (by simp)
      simp only [getPrimeFactorsLoop]
      rw [if_neg hd1, if_neg (by omega : ¬ p = 0), if_neg (by omega : ¬ p = 1)]
      obtain ⟨k, e, heq, hfact, hnd, hepos⟩ := divideOut_spec p hp2 drop drop 0 (by omega) le_rfl
      rw [heq]
      have hedvd : e ∣ x := dvd_trans ⟨p ^ k, by rw [hfact]; ring⟩ hddvd
      apply ih e _ (fun q hq => hl q (by simp [hq])) (fun q hq => hlP q (by simp [hq]))
        hepos hedvd
      intro kv hkv
      by_cases hk : 0 + k ≠ 0
      · rw [if_pos hk] at hkv
        rcases List.mem_append.mp hkv with hkv | hkv
        · exact hacc kv hkv
        · have : kv = (p, 0 + k) := by simpa using hkv
          subst this
          refine ⟨by omega, ?_, hlP p (by simp)⟩
          have hpdvd : p ∣ drop := by
            rw [hfact]
            exact Dvd.dvd.mul_right (dvd_pow_self p (by omega)) e
          exact dvd_trans hpdvd hddvd
      · rw [if_neg hk] at hkv
        exact hacc kv hkv

theorem gpfwc_small (x : Nat) (primes : List Nat) (hx : x ≤ 1) :
    get_prime_factors_with_counts x primes = some [(x, 1)] := by
  unfold get_prime_factors_with_counts
  cases primes with
  | nil => rfl
  | cons p rest =>
    simp only [getPrimeFactorsLoop]
    rw [if_pos hx]
    rfl

example : get_prime_factors_with_counts 0 [7] = some [(0, 1)] := by decide
example : get_primes_less_than_x 11 = some [2, 3, 5, 7] := by decide

/-! ## The claims -/

/-- C1 (amended): for every `x ≥ 2` and every prime list whose elements
are at least 2 and which contains every prime factor of `x`, the product
of `key ^ value` over all entries of
`get_prime_factors_with_counts x primes` equals `x`.  (The original
precondition, containing every prime up to `√x`, is not sufficient: see
`claim_C1_counterexample`.) -/
theorem claim_C1 (x : Nat) (primes : List Nat) (hx : 2 ≤ x)
    (hel : ∀ p ∈ primes, 2 ≤ p)
    (hcov : ∀ q, Nat.Prime q → q ∣ x → q ∈ primes) :
    ∃ l, get_prime_factors_with_counts x primes = some l ∧ prodPow l = x := by
  obtain ⟨out, hout, hprod⟩ :=
    getPrimeFactorsLoop_prod primes x [] hel (by omega) hcov
  have hpx : prodPow out = x := by
    rw [hprod]
    simp [prodPow]
  unfold get_prime_factors_with_counts
  rw [hout]
  refine ⟨_, rfl, ?_⟩
  by_cases hlen : out.length = 0
  · rw [if_pos hlen]
    simp [prodPow]
  · rw [if_neg hlen]
    exact hpx

/-- Witness for C1 at `x = 4`, `primes = [2]`. -/
theorem claim_C1_witness :
    ∃ l, get_prime_factors_with_counts 4 [2] = some l ∧ prodPow l = 4 := by
  apply claim_C1 4 [2] (by norm_num) (by decide)
  intro q hq hd
  have h4 : (4 : Nat) = 2 ^ 2 := by norm_num
  rw [h4] at hd
  have h2 : q ∣ 2 := hq.dvd_of_dvd_pow hd
  have : q = 2 := (Nat.prime_dvd_prime_iff_eq hq Nat.prime_two).mp h2
  simp [this]

/-- C1 counterexample: the list `[2]` contains every prime up to
`√6`, yet factorizing `6` over it returns `{2: 1}`, whose reconstruction
product is `2 ≠ 6` (the cofactor `3 > √6` is silently dropped because the
mapping is non-empty). -/
theorem claim_C1_counterexample :
    (∀ q : Nat, Nat.Prime q → q ≤ Nat.sqrt 6 → q ∈ [2]) ∧
    get_prime_factors_with_counts 6 [2] = some [(2, 1)] ∧
    prodPow [(2, 1)] ≠ 6 := by
  refine ⟨?_, by decide, by decide⟩
  intro q hq hle
  have hs : Nat.sqrt 6 = 2 := by norm_num
  have h2 := hq.two_le
  have he : q = 2 := by omega
  simp [he]

/-- C2 (amended): `get_primes_less_than_x` returns the empty list at
`x = 1`, `[2]` at `x = 3`, `[2,3,5,7]` at `x = 11` and `[2,3,5,7,11]` at
`x = 12`; at `x = 0` it panics (out-of-bounds `set(1)` on a bitmap of
size 1) instead of returning the empty list. -/
theorem claim_C2 :
    get_primes_less_than_x 1 = some [] ∧
    get_primes_less_than_x 3 = some [2] ∧
    get_primes_less_than_x 11 = some [2, 3, 5, 7] ∧
    get_primes_less_than_x 12 = some [2, 3, 5, 7, 11] ∧
    get_primes_less_than_x 0 = none :=
  ⟨by decide, by decide, by decide, by decide, by decide⟩

/-- C2 counterexample: `get_primes_less_than_x 0` does not return the
empty list (it panics). -/
theorem claim_C2_counterexample : get_primes_less_than_x 0 ≠ some [] := by decide

/-- C3 (amended): `get_primes_less_than_x` is total for `1 ≤ x < 2^32`
(it panics at `x = 0`); `is_u32_prime` is total for `x < 65533²`
(for primes `≥ 65533²` the loop multiplication `65537 * 65537` overflows
u32); `get_primes_between` is total for `min ≤ max`, `2 ≤ max` and
`max ≤ 2^52` (it underflows `max - true_min` when `max < 2` and
overflows `highest_factor + 1` when `⌊√max⌋ = 2^32 - 1`). -/
theorem claim_C3 :
    (∀ x : Nat, 1 ≤ x → x < 4294967296 → (get_primes_less_than_x x).isSome = true) ∧
    (∀ x : Nat, x < 4294574089 → (is_u32_prime x).isSome = true) ∧
    (∀ mn mx : Nat, mn ≤ mx → 2 ≤ mx → mx ≤ 4503599627370496 →
      (get_primes_between mn mx).isSome = true) := by
  refine ⟨?_, ?_, ?_⟩
  · intro x hx _
    unfold get_primes_less_than_x get_prime_bit_map
    rw [if_pos (by omega : 1 < x + 1)]
    rfl
  · intro x hx
    obtain ⟨b, hb, _⟩ := is_u32_prime_spec x hx
    rw [hb]
    rfl
  · intro mn mx h1 h2 h3
    obtain ⟨l, hl, _, _⟩ := get_primes_between_spec mn mx h1 h2 h3
    rw [hl]
    rfl

/-- Witness for C3 at `x = 5` and `(min, max) = (5, 9)`. -/
theorem claim_C3_witness :
    (get_primes_less_than_x 5).isSome = true ∧ (is_u32_prime 5).isSome = true ∧
    (get_primes_between 5 9).isSome = true :=
  ⟨claim_C3.1 5 (by norm_num) (by norm_num), claim_C3.2.1 5 (by norm_num),
   claim_C3.2.2 5 9 (by norm_num) (by norm_num) (by norm_num)⟩

/-- C3 counterexample: `min = 0 ≤ max = 1`, but `get_primes_between 0 1`
panics — the subtraction `max - true_min = 1 - 2` underflows when sizing
the offset bitmap. -/
theorem claim_C3_counterexample : get_primes_between 0 1 = none := by decide

/-- C4 (amended): for `min ≤ max`, `2 ≤ max` and `max ≤ 2^52`,
`get_primes_between min max` returns exactly the primes `v` with
`max(min, 2) ≤ v < max` in strictly increasing order.  (For
`max = (2^32 - 1)^2` the function instead panics, see
`claim_C4_counterexample`; the `2^52` margin keeps the `f64` square-root
model exact.) -/
theorem claim_C4 (mn mx : Nat) (h1 : mn ≤ mx) (h2 : 2 ≤ mx)
    (h3 : mx ≤ 4503599627370496) :
    ∃ l, get_primes_between mn mx = some l ∧ l.Sorted (· < ·) ∧
      ∀ v, v ∈ l ↔ ((if mn < 2 then 2 else mn) ≤ v ∧ v < mx ∧ Nat.Prime v) :=
  get_primes_between_spec mn mx h1 h2 h3

/-- Witness for C4 at `(min, max) = (11, 29)`. -/
theorem claim_C4_witness :
    ∃ l, get_primes_between 11 29 = some l ∧ l.Sorted (· < ·) ∧
      ∀ v, v ∈ l ↔ ((if (11 : Nat) < 2 then 2 else 11) ≤ v ∧ v < 29 ∧ Nat.Prime v) :=
  claim_C4 11 29 (by norm_num) (by norm_num) (by norm_num)

/-- C4 counterexample: at `min = 2`, `max = (2^32 - 1)^2` (so `min ≤ max`
and `max ≥ 2`) the u32 addition `highest_factor + 1` overflows, because
`⌊√max⌋ = 2^32 - 1`; the function panics instead of returning the primes
in range. -/
theorem claim_C4_counterexample :
    get_primes_between 2 18446744065119617025 = none := by
  have hsq : natSqrt 18446744065119617025 = 4294967295 := by
    rw [natSqrt_eq]
    norm_num
  simp only [get_primes_between, hsq]
  norm_num

/-- C5 (amended): for every `1 ≤ x < 2^32`, `get_primes_less_than_x x`
returns exactly the primes below `x`, in strictly increasing order.  (At
`x = 0` it panics, see `claim_C5_counterexample`.) -/
theorem claim_C5 (x : Nat) (hx : 1 ≤ x) (_hx32 : x < 4294967296) :
    ∃ l, get_primes_less_than_x x = some l ∧ l.Sorted (· < ·) ∧
      ∀ n, n ∈ l ↔ n < x ∧ Nat.Prime n :=
  get_primes_less_than_x_spec x hx

/-- Witness for C5 at `x = 11`. -/
theorem claim_C5_witness :
    ∃ l, get_primes_less_than_x 11 = some l ∧ l.Sorted (· < ·) ∧
      ∀ n, n ∈ l ↔ n < 11 ∧ Nat.Prime n :=
  claim_C5 11 (by norm_num) (by norm_num)

/-- C5 counterexample: at `x = 0` the function returns nothing at all
(out-of-bounds `set`), so it does not return the list of primes below 0. -/
theorem claim_C5_counterexample : (get_primes_less_than_x 0).isSome = false := by decide

/-- C6 (amended): for every `2 ≤ n < 2^32`, `get_primes_between 0 n`
returns the same list as `get_primes_less_than_x n`.  (At `n = 1` the
offset sieve panics while the full sieve returns the empty list, see
`claim_C6_counterexample`; at `n = 0` both panic.) -/
theorem claim_C6 (n : Nat) (h2 : 2 ≤ n) (h32 : n < 4294967296) :
    get_primes_between 0 n = get_primes_less_than_x n := by
  obtain ⟨l1, hl1, hs1, hm1⟩ := get_primes_between_spec 0 n (by omega) h2 (by omega)
  obtain ⟨l2, hl2, hs2, hm2⟩ := get_primes_less_than_x_spec n (by omega)
  rw [hl1, hl2]
  have hmem : ∀ v, v ∈ l1 ↔ v ∈ l2 := by
    intro v
    rw [hm1 v, hm2 v]
    constructor
    · rintro ⟨hv2, hvn, hp⟩
      exact ⟨hvn, hp⟩
    · rintro ⟨hvn, hp⟩
      exact ⟨by simpa using hp.two_le, hvn, hp⟩
  have hnd1 : l1.Nodup := hs1.imp (fun h => Nat.ne_of_lt h)
  have hnd2 : l2.Nodup := hs2.imp (fun h => Nat.ne_of_lt h)
  congr 1
  exact List.eq_of_perm_of_sorted ((List.perm_ext_iff_of_nodup hnd1 hnd2).mpr hmem) hs1 hs2

/-- Witness for C6 at `n = 10`. -/
theorem claim_C6_witness : get_primes_between 0 10 = get_primes_less_than_x 10 :=
  claim_C6 10 (by norm_num) (by norm_num)

/-- C6 counterexample: at `n = 1` the offset sieve panics (underflow of
`max - true_min`) while the full sieve returns the empty list, so the two
disagree. -/
theorem claim_C6_counterexample :
    get_primes_between 0 1 ≠ get_primes_less_than_x 1 := by decide

/-- C7 (amended): for every `x < 65533² = 4294574089`, `is_u32_prime x`
returns a verdict and the verdict is `true` exactly when `x` is prime; in
particular it returns `true` at `982451653` and `false` at `5083` and at
`1`.  (For prime inputs `≥ 65533²` the loop multiplication overflows and
the function panics, see `claim_C7_counterexample`.) -/
theorem claim_C7 :
    (∀ x : Nat, x < 4294574089 →
      ((is_u32_prime x = some true ↔ Nat.Prime x) ∧ (is_u32_prime x).isSome = true)) ∧
    is_u32_prime 982451653 = some true ∧
    is_u32_prime 5083 = some false ∧
    is_u32_prime 1 = some false := by
  have huniv : ∀ x : Nat, x < 4294574089 →
      ((is_u32_prime x = some true ↔ Nat.Prime x) ∧ (is_u32_prime x).isSome = true) := by
    intro x hx
    obtain ⟨b, hb, hbiff⟩ := is_u32_prime_spec x hx
    refine ⟨?_, by rw [hb]; rfl⟩
    rw [hb]
    constructor
    · intro h
      exact hbiff.mp (Option.some_inj.mp h)
    · intro h
      rw [hbiff.mpr h]
  refine ⟨huniv, ?_, ?_, by decide⟩
  · have hloop := u32WheelLoop_true_982451653 65536 5 2 (Or.inl ⟨rfl, rfl⟩)
      (by omega) (by omega) (by omega)
    unfold is_u32_prime is_u32_definitely_composite is_u32_definately_prime
    rw [if_neg (by norm_num : ¬ (982451653 : Nat) < 2), if_neg (by simp),
      if_neg (by norm_num : ¬ ((982451653 : Nat) = 2 ∨ (982451653 : Nat) = 3)),
      if_neg (by norm_num : ¬ ((982451653 : Nat) % 2 = 0 ∨ (982451653 : Nat) % 3 = 0))]
    exact hloop
  · obtain ⟨b, hb, hbiff⟩ := is_u32_prime_spec 5083 (by norm_num)
    have hnp : ¬ Nat.Prime 5083 := by norm_num
    cases b
    · exact hb
    · exact absurd (hbiff.mp rfl) hnp

/-- Witness for C7 at `x = 7`. -/
theorem claim_C7_witness :
    (is_u32_prime 7 = some true ↔ Nat.Prime 7) ∧ (is_u32_prime 7).isSome = true :=
  claim_C7.1 7 (by norm_num)

/-- C7 counterexample: at `x = 4294967291` (the prime `2^32 - 5`) the
trial-division loop finds no divisor, reaches `i = 65537`, and the u32
multiplication `i * i` overflows: the function panics instead of
returning a verdict. -/
theorem claim_C7_counterexample : is_u32_prime 4294967291 = none := by
  have h := u32WheelLoop_panics_4294967291 65536 5 2 (Or.inl ⟨rfl, rfl⟩) (by omega)
  unfold is_u32_prime is_u32_definitely_composite is_u32_definately_prime
  rw [if_neg (by norm_num : ¬ (4294967291 : Nat) < 2), if_neg (by simp),
    if_neg (by norm_num : ¬ ((4294967291 : Nat) = 2 ∨ (4294967291 : Nat) = 3)),
    if_neg (by norm_num : ¬ ((4294967291 : Nat) % 2 = 0 ∨ (4294967291 : Nat) % 3 = 0))]
  exact h

/-- C8 (code bug): `is_u64_definately_prime` is missing the `return`
keywords on its two guard statements, so (as the source is written) the
guards are dead and the wheel loop starts at `i = 5` for every input; at
`x = 4` the loop condition `5 * 5 <= 4` fails immediately and the
function answers `true`, although 4 is composite.  The claim (trial
division by 2, 3 and `6k ± 1`) matches the intent visible in the u32 twin
and in the doc tests, so the code, not the claim, is wrong. -/
theorem claim_C8 : is_u64_prime 4 = some true ∧ ¬ Nat.Prime 4 :=
  ⟨by decide, by norm_num⟩

/-- C9 (amended): if `x < 2`, or no element of the list divides `x` and
the list contains no zero, then `get_prime_factors_with_counts x primes`
is exactly the singleton mapping `{x: 1}`; in particular factorizing 101
over `get_primes_less_than_x 11 = [2,3,5,7]` yields `{101: 1}`.  (Without
the no-zero condition the function can panic, see
`claim_C9_counterexample`.) -/
theorem claim_C9 :
    (∀ (x : Nat) (primes : List Nat),
      (x < 2 ∨ ((∀ p ∈ primes, p ≠ 0) ∧ ∀ p ∈ primes, ¬ p ∣ x)) →
      get_prime_factors_with_counts x primes = some [(x, 1)]) ∧
    (get_primes_less_than_x 11 = some [2, 3, 5, 7] ∧
      get_prime_factors_with_counts 101 [2, 3, 5, 7] = some [(101, 1)]) := by
  constructor
  · intro x primes h
    rcases h with h | ⟨h0, hnd⟩
    · exact gpfwc_small x primes (by omega)
    · by_cases hx1 : x ≤ 1
      · exact gpfwc_small x primes hx1
      · unfold get_prime_factors_with_counts
        rw [getPrimeFactorsLoop_nodiv x (by omega) primes []
          (fun p hp => ⟨hnd p hp, h0 p hp⟩)]
        rfl
  · exact ⟨by decide, by decide⟩

/-- Witness for C9 at `x = 3`, `primes = [2]`. -/
theorem claim_C9_witness : get_prime_factors_with_counts 3 [2] = some [(3, 1)] :=
  claim_C9.1 3 [2] (Or.inr ⟨by decide, by decide⟩)

/-- C9 counterexample: no element of `[0]` divides 7, yet
`get_prime_factors_with_counts 7 [0]` panics (`7 % 0` divides by zero)
instead of returning `{7: 1}`. -/
theorem claim_C9_counterexample :
    ¬ (0 : Nat) ∣ 7 ∧ get_prime_factors_with_counts 7 [0] = none :=
  ⟨by decide, by decide⟩

/-- C10 (amended): for every `x` and every candidate list whose elements
are all at least 2, the returned mapping has every multiplicity at least
1, every key dividing `x`, and every key other than `x` itself an element
of the list.  (For lists containing 0 the function panics, and for lists
containing 1 it diverges, so some restriction on the list is needed; see
`claim_C10_counterexample`.) -/
theorem claim_C10 (x : Nat) (primes : List Nat) (hel : ∀ p ∈ primes, 2 ≤ p) :
    ∃ l, get_prime_factors_with_counts x primes = some l ∧
      ∀ kv ∈ l, 1 ≤ kv.2 ∧ kv.1 ∣ x ∧ (kv.1 ≠ x → kv.1 ∈ primes) := by
  by_cases hx1 : x ≤ 1
  · rw [gpfwc_small x primes hx1]
    refine ⟨[(x, 1)], rfl, ?_⟩
    intro kv hkv
    have he : kv = (x, 1) := by simpa using hkv
    subst he
    exact ⟨le_refl 1, dvd_refl x, fun h => absurd rfl h⟩
  · obtain ⟨d, out, hout, hprops⟩ := getPrimeFactorsLoop_props x primes primes x []
      hel (fun p hp => hp) (by omega) (dvd_refl x) (by intro kv hkv; simp at hkv)
    unfold get_prime_factors_with_counts
    rw [hout]
    refine ⟨_, rfl, ?_⟩
    intro kv hkv
    by_cases hlen : out.length = 0
    · rw [if_pos hlen] at hkv
      have he : kv = (x, 1) := by simpa using hkv
      subst he
      exact ⟨le_refl 1, dvd_refl x, fun h => absurd rfl h⟩
    · rw [if_neg hlen] at hkv
      have h := hprops kv hkv
      exact ⟨h.1, h.2.1, fun _ => h.2.2⟩

/-- Witness for C10 at `x = 6`, `primes = [2]`. -/
theorem claim_C10_witness :
    ∃ l, get_prime_factors_with_counts 6 [2] = some l ∧
      ∀ kv ∈ l, 1 ≤ kv.2 ∧ kv.1 ∣ 6 ∧ (kv.1 ≠ 6 → kv.1 ∈ [2]) :=
  claim_C10 6 [2] (by decide)

/-- C10 counterexample: with the candidate list `[0]` (allowed by the
claim, which states no precondition) the function panics on `2 % 0`
instead of returning a mapping. -/
theorem claim_C10_counterexample : get_prime_factors_with_counts 2 [0] = none := by decide

example : get_primes_less_than_x 12 = some [2, 3, 5, 7, 11] := by decide
example : get_primes_less_than_x 1 = some [] := by decide
example : get_primes_less_than_x 0 = none := by decide
example : get_primes_between 11 29 = some [11, 13, 17, 19, 23] := by decide
example : get_primes_between 1 10 = some [2, 3, 5, 7] := by decide
example : get_primes_between 2 3 = some [2] := by decide
example : get_primes_between 0 2 = some [] := by decide
example : get_primes_between 0 1 = none := by decide
example : is_u32_prime 97 = some true := by decide
example : is_u32_prime 91 = some false := by decide
example : is_u64_prime 4 = some true := by decide
example : get_prime_factors_with_counts 120 [2, 3, 5, 7, 11] =
    some [(2, 3), (3, 1), (5, 1)] := by decide
example : get_prime_factors_with_counts 121 [2, 3, 5, 7, 11] =
    some [(11, 2)] := by decide
example : get_prime_factors_with_counts 11 [2, 3] = some [(11, 1)] := by decide
example : get_prime_factors_with_counts 6 [2] = some [(2, 1)] := by decide
example : get_prime_factors_with_counts 7 [0] = none := by decide

end PrimeTools
